import Mathlib

/-!
Verification of the GraphCompiler compilation pipeline
(paddle/cinn/hlir/framework/graph_compiler.h) and the InputFusePass
interface (paddle/cinn/hlir/pass/general_fusion_merge_pass/input_fuse_pass.h).

The repository ships only the headers for the pipeline; the bodies of
`Build`, `Lowering`, `AnalyzeVariableLifeTime`, `InsertBufferHandlers` and
`RemoveInvalidVariables` are modelled from the specification document, as
noted on each definition.
-/

namespace GraphCompilerModel

/-- One step of the runtime Program: a kernel invocation bound to a kernel
handle with ordered input/output variable names, or a synthetic buffer
allocate/release directive naming exactly one variable. -/
inductive Instr where
  | compute (kernel : String) (inputs outputs : List String) : Instr
  | alloc (var : String) : Instr
  | free (var : String) : Instr
deriving DecidableEq, Repr

/-- Whether the instruction is an original kernel invocation (not a
synthetic allocate/release directive). -/
def Instr.isCompute : Instr → Bool
  | .compute _ _ _ => true
  | _ => false

/-- The variable names referenced (as input or output) by an instruction.
Synthetic allocate/release directives reference no variable in the sense of
the lifetime analysis; they act on their single operand. -/
def Instr.refs : Instr → List String
  | .compute _ ins outs => ins ++ outs
  | _ => []

/-- The steps of an indexed instruction list at which variable `v` is
referenced (as input or output). -/
def stepsOf (l : List (Nat × Instr)) (v : String) : List Nat :=
  (l.filter (fun p => decide (v ∈ p.2.refs))).map Prod.fst

/-- The indices (0-based) of the instructions referencing variable `v`. -/
def refSteps (instrs : List Instr) (v : String) : List Nat :=
  stepsOf instrs.enum v

/-- The lifetime table built by the analyzer: variable name ↦
(first-use step, last-use step). -/
abbrev LifeMap := List (String × (Nat × Nat))

/-- Look up the recorded (first-use, last-use) pair of a variable. -/
def lifeOf : LifeMap → String → Option (Nat × Nat)
  | [], _ => none
  | (w, fl) :: rest, v => if w = v then some fl else lifeOf rest v

/-- Modelled from the spec (§4.6, body of
`GraphCompiler::AnalyzeVariableLifeTime` is not in the repository sources):
recording one reference of variable `v` at step `i` keeps the minimum step
seen as the first use and the maximum step seen as the last use. -/
def recordUse : LifeMap → Nat → String → LifeMap
  | [], i, v => [(v, (i, i))]
  | (w, fl) :: rest, i, v =>
    if w = v then (w, (min fl.1 i, max fl.2 i)) :: rest
    else (w, fl) :: recordUse rest i v

/-- Record every variable referenced by instruction `ins` at step `i`. -/
def recordStep (m : LifeMap) (i : Nat) (ins : Instr) : LifeMap :=
  ins.refs.foldl (fun acc v => recordUse acc i v) m

/-- Linear pass of the lifetime analyzer over an indexed instruction list. -/
def analyzeAux (m : LifeMap) (l : List (Nat × Instr)) : LifeMap :=
  l.foldl (fun acc p => recordStep acc p.1 p.2) m

/-- Modelled from the spec (§4.6, body of
`GraphCompiler::AnalyzeVariableLifeTime` is not in the repository sources):
single linear pass over the instruction sequence indexed 0..N-1, recording
for every referenced variable the minimum index seen as its first-use step
and the maximum index seen as its last-use step. -/
def AnalyzeVariableLifeTime (instrs : List Instr) : LifeMap :=
  analyzeAux [] instrs.enum

/-- Modelled from the spec (§4.6): the allocate-before map, step ↦ list of
variables whose first-use step equals that step. -/
def step2malloc (instrs : List Instr) (i : Nat) : List String :=
  (AnalyzeVariableLifeTime instrs).filterMap
    (fun p => if p.2.1 = i then some p.1 else none)

/-- Modelled from the spec (§4.6): the release-after map, step ↦ list of
variables whose last-use step equals that step; variables of the fetch set
are excluded (they must remain live for the caller). -/
def step2free (fetch : List String) (instrs : List Instr) (i : Nat) : List String :=
  (AnalyzeVariableLifeTime instrs).filterMap
    (fun p => if p.2.2 = i ∧ p.1 ∉ fetch then some p.1 else none)

/-- The instructions spliced around the original instruction at step `i`:
its allocate-before markers, the instruction itself, its release-after
markers. -/
def handlerChunk (fetch : List String) (instrs : List Instr) (p : Nat × Instr) : List Instr :=
  (step2malloc instrs p.1).map Instr.alloc ++ p.2 :: (step2free fetch instrs p.1).map Instr.free

/-- Modelled from the spec (§4.7, body of
`GraphCompiler::InsertBufferHandlers` is not in the repository sources):
immediately before the instruction at step `i` insert one allocate
instruction per variable in that step's allocate-before list, and
immediately after it one release instruction per variable in that step's
release-after list. -/
def InsertBufferHandlers (fetch : List String) (instrs : List Instr) : List Instr :=
  instrs.enum.flatMap (handlerChunk fetch instrs)

/-- Extend a recorded (first-use, last-use) pair by one more reference step. -/
def extendLife (fl : Nat × Nat) (i : Nat) : Nat × Nat :=
  (min fl.1 i, max fl.2 i)

/-- The lifetime determined by a list of reference steps: none when the list
is empty, otherwise the fold of `extendLife` over the steps. -/
def lifeOfSteps : List Nat → Option (Nat × Nat)
  | [] => none
  | s :: ss => some (ss.foldl extendLife (s, s))

/-- The variable names carried by a lifetime table. -/
def keysOf (m : LifeMap) : List String :=
  m.map Prod.fst

/-- All variable names referenced (as input or output) by some built
instruction. -/
def referencedVars (instrs : List Instr) : List String :=
  instrs.flatMap Instr.refs

/-- Modelled from the spec (§4.5, body of
`GraphCompiler::RemoveInvalidVariables` is not in the repository sources):
erase from the variable store every variable that is neither referenced by
the built instructions nor present in the fetch set. -/
def RemoveInvalidVariables (fetch : List String) (instrs : List Instr)
    (scope : List String) : List String :=
  scope.filter (fun v => decide (v ∈ referencedVars instrs ∨ v ∈ fetch))

/-- A low-level function produced by the Lowering stage (opaque payload). -/
structure LoweredFunc where
  name : String
deriving DecidableEq, Repr

/-- A compilation group: an opaque, already-fused unit of work with its
declared input and output variable names. -/
structure Group where
  id : String
  inputs : List String
  outputs : List String
deriving DecidableEq, Repr

/-- Compile target descriptor (opaque). -/
structure Target where
  arch : String := ""
deriving DecidableEq, Repr

/-- Computation graph (opaque payload). -/
structure Graph where
  nodes : List String := []
deriving DecidableEq, Repr

/-- `ParallelCompiler::Stage`: the requested stopping stage. `DEFAULT` runs
the full pipeline; `LOWERING` stops after the Lowering stage (used by the
auto-tuning feedback loop). -/
inductive Stage where
  | DEFAULT
  | LOWERING
deriving DecidableEq, Repr

/-- `GraphCompiler::CompilationContext` with the default member values of
the header (graph_compiler.h lines 57-91). -/
structure CompilationContext where
  attached_code : String := ""
  with_instantiate_variables : Bool := false
  with_buffer_handle_instruction_inserted : Bool := false
  remove_unused_variables : Bool := true
  stage : Stage := Stage.DEFAULT
  target : Target := {}
  graph : Graph := {}
  scope : List String := []
  fetch_var_ids : List String := []
  reuse_vars_map : List (String × String) := []
  groups : List Group := []
  lowered_funcs : List (List LoweredFunc) := []
deriving DecidableEq, Repr

/-- The failure taxonomy of the compile pipeline (spec §7). -/
inductive CompileError where
  | RequestShapeError
  | LoweringFailure
  | CodegenFailure
  | LoadFailure
deriving DecidableEq, Repr

/-- The external collaborators of the pipeline: the operator-strategy
interface used by Lowering, and the codegen / device-codegen / JIT backend.
They are parameters of the model, shared by both runs in determinism
statements. -/
structure ExternalBackend where
  lowerGroup : Group → List LoweredFunc
  codegen : List LoweredFunc → Except CompileError String
  devcodegen : List LoweredFunc → String
  jit : String → Except CompileError String

/-- Lower every group, in order, through the operator-strategy interface; a
group yielding no function is a Lowering failure. -/
def lowerGroups (lower : Group → List LoweredFunc) :
    List Group → Except CompileError (List (List LoweredFunc))
  | [] => .ok []
  | g :: gs =>
    if lower g = [] then .error .LoweringFailure
    else
      match lowerGroups lower gs with
      | .error e => .error e
      | .ok rest => .ok (lower g :: rest)

/-- Modelled from the spec (§4.2 and §3, body of `GraphCompiler::Lowering`
is not in the repository sources): when the request carries precomputed
function lists they are used verbatim after checking one list per group
(`RequestShapeError` otherwise); when it carries none, the external
operator-strategy interface is invoked once per group, in group order. -/
def Lowering (b : ExternalBackend) (ctx : CompilationContext) :
    Except CompileError (List (List LoweredFunc)) :=
  if ctx.lowered_funcs = [] then lowerGroups b.lowerGroup ctx.groups
  else if ctx.lowered_funcs.length = ctx.groups.length then .ok ctx.lowered_funcs
  else .error .RequestShapeError

/-- Render source text for every group's function list; any failure is
fatal to the whole call. -/
def codegenAll (b : ExternalBackend) :
    List (List LoweredFunc) → Except CompileError (List String)
  | [] => .ok []
  | fs :: rest =>
    match b.codegen fs, codegenAll b rest with
    | .error e, _ => .error e
    | .ok _, .error e => .error e
    | .ok s, .ok ss => .ok (s :: ss)

/-- Load every group's generated source into a callable kernel handle; any
failure is fatal to the whole call. -/
def jitAll (b : ExternalBackend) : List String → Except CompileError (List String)
  | [] => .ok []
  | s :: rest =>
    match b.jit s, jitAll b rest with
    | .error e, _ => .error e
    | .ok _, .error e => .error e
    | .ok k, .ok ks => .ok (k :: ks)

/-- Substitute a variable name through the reuse-alias map: a registered
alias is replaced by the source variable sharing its buffer. -/
def resolveAlias (reuse : List (String × String)) (v : String) : String :=
  match reuse.lookup v with
  | some src => src
  | none => v

/-- One instruction bound to a group's compiled kernel handle, its argument
names resolved through the reuse-alias map. -/
def buildInstr (reuse : List (String × String)) (g : Group) (kernel : String) : Instr :=
  Instr.compute kernel (g.inputs.map (resolveAlias reuse))
    (g.outputs.map (resolveAlias reuse))

/-- Modelled from the spec (§4.4, body of
`GraphCompiler::BuildInstruction` is not in the repository sources): one
instruction per group, in group order, bound to that group's kernel. -/
def BuildInstruction (ctx : CompilationContext) (kernels : List String) : List Instr :=
  (ctx.groups.zip kernels).map (fun p => buildInstr ctx.reuse_vars_map p.1 p.2)

/-- `GraphCompiler::CompilationResult`: the result bundle of a compile. -/
structure CompilationResult where
  program : List Instr
  lowered_funcs : List (List LoweredFunc)
  source_codes : List String
  source_ptxs : List String
deriving DecidableEq, Repr

/-- Modelled from the spec (§4.1, body of `GraphCompiler::Build` is not in
the repository sources): the DEFAULT-stage pipeline, Lowering → Codegen →
JIT → Instruction Building → optional buffer-handler insertion; any stage
failure aborts the whole call and no partial Program is returned. -/
def Build (b : ExternalBackend) (ctx : CompilationContext) :
    Except CompileError CompilationResult :=
  match Lowering b ctx with
  | .error e => .error e
  | .ok funcs =>
    match codegenAll b funcs with
    | .error e => .error e
    | .ok sources =>
      match jitAll b sources with
      | .error e => .error e
      | .ok kernels =>
        let instrs := BuildInstruction ctx kernels
        let final :=
          if ctx.with_buffer_handle_instruction_inserted then
            InsertBufferHandlers ctx.fetch_var_ids instrs
          else instrs
        .ok { program := final
              lowered_funcs := funcs
              source_codes := sources
              source_ptxs := funcs.map b.devcodegen }

/-- Context handed to an input-fuse pass (opaque payload). -/
structure InputFusePassCtx where
  groups : List Group := []
deriving DecidableEq, Repr

/-- An object of a class derived from `InputFusePass`
(input_fuse_pass.h lines 25-37): the subclass supplies the pure virtual
members `Benefit` and `operator()`; `FuseMode` is final in `InputFusePass`
and cannot be overridden, so it is a function of the base interface. -/
structure InputFusePass where
  Benefit : Int
  call : InputFusePassCtx → InputFusePassCtx

/-- `InputFusePass::FuseMode` (input_fuse_pass.h line 31): declared final,
returning the constant tag. -/
def InputFusePass.FuseMode (_ : InputFusePass) : String :=
  "InputFuse"

/-- Concrete external backend for witnesses. -/
def exampleBackend : ExternalBackend :=
  { lowerGroup := fun g => [⟨g.id ++ "_fn"⟩]
    codegen := fun fs => .ok (String.intercalate ";" (fs.map LoweredFunc.name))
    devcodegen := fun _ => ""
    jit := fun s => .ok ("kernel_" ++ s) }

/-- Concrete two-group compilation request for witnesses: g1 consumes g0's
output "t1", and "y" is fetched. -/
def exampleCtx : CompilationContext :=
  { groups := [⟨"g0", ["x"], ["t1"]⟩, ⟨"g1", ["t1"], ["y"]⟩]
    fetch_var_ids := ["y"]
    scope := ["x", "t1", "y"] }

/-- The result bundle of building `exampleCtx` with `exampleBackend`. -/
def exampleResult : CompilationResult :=
  { program := [Instr.compute "kernel_g0_fn" ["x"] ["t1"],
                Instr.compute "kernel_g1_fn" ["t1"] ["y"]]
    lowered_funcs := [[⟨"g0_fn"⟩], [⟨"g1_fn"⟩]]
    source_codes := ["g0_fn", "g1_fn"]
    source_ptxs := ["", ""] }

/-- Concrete instruction sequence for witnesses: variable "a" is referenced
at steps 2, 5, 5 and 9 (the spec's worked example). -/
def exampleInstrs : List Instr :=
  [Instr.compute "k0" ["x"] ["y"],
   Instr.compute "k1" [] ["z"],
   Instr.compute "k2" ["a"] ["b"],
   Instr.compute "k3" [] [],
   Instr.compute "k4" [] [],
   Instr.compute "k5" ["a", "a"] ["c"],
   Instr.compute "k6" [] [],
   Instr.compute "k7" [] [],
   Instr.compute "k8" [] [],
   Instr.compute "k9" [] ["a"]]

/-! ### Lemmas on the lifetime analyzer -/

theorem lifeOf_recordUse_self (m : LifeMap) (i : Nat) (v : String) :
    lifeOf (recordUse m i v) v =
      some ((lifeOf m v).elim (i, i) (fun fl => extendLife fl i)) := by
  induction m with
  | nil => simp [recordUse, lifeOf, extendLife]
  | cons p rest ih =>
    obtain ⟨w, fl⟩ := p
    by_cases h : w = v
    · subst h
      simp [recordUse, lifeOf, extendLife]
    · simp [recordUse, lifeOf, h, ih]

theorem lifeOf_recordUse_ne (m : LifeMap) (i : Nat) (v w : String) (h : w ≠ v) :
    lifeOf (recordUse m i v) w = lifeOf m w := by
  have hvw : ¬(v = w) := fun e => h e.symm
  induction m with
  | nil => simp [recordUse, lifeOf, hvw]
  | cons p rest ih =>
    obtain ⟨u, fl⟩ := p
    by_cases hu : u = v
    · subst hu
      simp [recordUse, lifeOf, hvw]
    · by_cases huw : u = w <;> simp [recordUse, lifeOf, hu, huw, h, ih]

theorem lifeOf_foldRecord (i : Nat) (v : String) :
    ∀ (vs : List String) (m : LifeMap),
      lifeOf (vs.foldl (fun acc w => recordUse acc i w) m) v =
        if v ∈ vs then some ((lifeOf m v).elim (i, i) (fun fl => extendLife fl i))
        else lifeOf m v := by
  intro vs
  induction vs with
  | nil => intro m; simp
  | cons w ws ih =>
    intro m
    by_cases h : v = w
    · subst h
      rw [List.foldl_cons, ih (recordUse m i v)]
      by_cases hmem : v ∈ ws
      · simp only [hmem, if_true, List.mem_cons, true_or, lifeOf_recordUse_self]
        cases hl : lifeOf m v with
        | none =>
          have h1 : min i i = i := by omega
          have h2 : max i i = i := by omega
          simp [hl, extendLife, h1, h2]
        | some fl =>
          have h1 : min (min fl.1 i) i = min fl.1 i := by omega
          have h2 : max (max fl.2 i) i = max fl.2 i := by omega
          simp [hl, extendLife, h1, h2]
      · simp [hmem, lifeOf_recordUse_self]
    · rw [List.foldl_cons, ih (recordUse m i w)]
      rw [lifeOf_recordUse_ne m i w v h]
      simp [List.mem_cons, h]

theorem lifeOf_recordStep (m : LifeMap) (i : Nat) (ins : Instr) (v : String) :
    lifeOf (recordStep m i ins) v =
      if v ∈ ins.refs then some ((lifeOf m v).elim (i, i) (fun fl => extendLife fl i))
      else lifeOf m v :=
  lifeOf_foldRecord i v ins.refs m

theorem lifeOf_analyzeAux (v : String) :
    ∀ (l : List (Nat × Instr)) (m : LifeMap),
      lifeOf (analyzeAux m l) v =
        (lifeOf m v).elim (lifeOfSteps (stepsOf l v))
          (fun fl => some ((stepsOf l v).foldl extendLife fl)) := by
  intro l
  induction l with
  | nil =>
    intro m
    cases hl : lifeOf m v <;> simp [analyzeAux, stepsOf, lifeOfSteps, hl]
  | cons p rest ih =>
    intro m
    have hstep : analyzeAux m (p :: rest) = analyzeAux (recordStep m p.1 p.2) rest := by
      simp [analyzeAux]
    rw [hstep, ih (recordStep m p.1 p.2), lifeOf_recordStep]
    by_cases hv : v ∈ p.2.refs
    · cases hl : lifeOf m v with
      | none => simp [hv, hl, stepsOf, List.filter_cons, lifeOfSteps]
      | some fl => simp [hv, hl, stepsOf, List.filter_cons, lifeOfSteps]
    · cases hl : lifeOf m v with
      | none => simp [hv, hl, stepsOf, List.filter_cons]
      | some fl => simp [hv, hl, stepsOf, List.filter_cons]

theorem lifeOf_analyze (instrs : List Instr) (v : String) :
    lifeOf (AnalyzeVariableLifeTime instrs) v = lifeOfSteps (refSteps instrs v) := by
  have h := lifeOf_analyzeAux v instrs.enum []
  simpa [AnalyzeVariableLifeTime, refSteps, lifeOf] using h

theorem foldl_min_le (ss : List Nat) :
    ∀ (s : Nat), ∀ x ∈ s :: ss, ss.foldl min s ≤ x := by
  induction ss with
  | nil =>
    intro s x hx
    simp only [List.mem_singleton] at hx
    subst hx
    simp
  | cons a tl ih =>
    intro s x hx
    have hbase : tl.foldl min (min s a) ≤ min s a := ih (min s a) (min s a) (by simp)
    rw [List.foldl_cons]
    simp only [List.mem_cons] at hx
    rcases hx with rfl | rfl | hx
    · exact le_trans hbase (by omega)
    · exact le_trans hbase (by omega)
    · exact ih (min s a) x (by simp [hx])

theorem foldl_min_mem (ss : List Nat) :
    ∀ (s : Nat), ss.foldl min s ∈ s :: ss := by
  induction ss with
  | nil => intro s; simp
  | cons a tl ih =>
    intro s
    have h := ih (min s a)
    simp only [List.mem_cons] at h
    rw [List.foldl_cons]
    rcases h with h | h
    · have hma : min s a = s ∨ min s a = a := by omega
      rcases hma with h2 | h2 <;> rw [h, h2] <;> simp
    · simp only [List.mem_cons]
      right; right; exact h

theorem foldl_max_le (ss : List Nat) :
    ∀ (s : Nat), ∀ x ∈ s :: ss, x ≤ ss.foldl max s := by
  induction ss with
  | nil =>
    intro s x hx
    simp only [List.mem_singleton] at hx
    subst hx
    simp
  | cons a tl ih =>
    intro s x hx
    have hbase : max s a ≤ tl.foldl max (max s a) := ih (max s a) (max s a) (by simp)
    rw [List.foldl_cons]
    simp only [List.mem_cons] at hx
    rcases hx with rfl | rfl | hx
    · exact le_trans (by omega) hbase
    · exact le_trans (by omega) hbase
    · exact ih (max s a) x (by simp [hx])

theorem foldl_max_mem (ss : List Nat) :
    ∀ (s : Nat), ss.foldl max s ∈ s :: ss := by
  induction ss with
  | nil => intro s; simp
  | cons a tl ih =>
    intro s
    have h := ih (max s a)
    simp only [List.mem_cons] at h
    rw [List.foldl_cons]
    rcases h with h | h
    · have hma : max s a = s ∨ max s a = a := by omega
      rcases hma with h2 | h2 <;> rw [h, h2] <;> simp
    · simp only [List.mem_cons]
      right; right; exact h

theorem foldl_extendLife_fst (ss : List Nat) :
    ∀ (fl : Nat × Nat), (ss.foldl extendLife fl).1 = ss.foldl min fl.1 := by
  induction ss with
  | nil => intro fl; rfl
  | cons a tl ih => intro fl; simp [List.foldl_cons, extendLife, ih]

theorem foldl_extendLife_snd (ss : List Nat) :
    ∀ (fl : Nat × Nat), (ss.foldl extendLife fl).2 = ss.foldl max fl.2 := by
  induction ss with
  | nil => intro fl; rfl
  | cons a tl ih => intro fl; simp [List.foldl_cons, extendLife, ih]

theorem lifeOfSteps_some (steps : List Nat) (f l : Nat)
    (h : lifeOfSteps steps = some (f, l)) :
    f ∈ steps ∧ l ∈ steps ∧ ∀ x ∈ steps, f ≤ x ∧ x ≤ l := by
  cases steps with
  | nil => simp [lifeOfSteps] at h
  | cons s ss =>
    simp only [lifeOfSteps, Option.some.injEq] at h
    have hf : f = ss.foldl min s := by
      have := congrArg Prod.fst h
      simpa [foldl_extendLife_fst] using this.symm
    have hl : l = ss.foldl max s := by
      have := congrArg Prod.snd h
      simpa [foldl_extendLife_snd] using this.symm
    subst hf hl
    refine ⟨foldl_min_mem ss s, foldl_max_mem ss s, ?_⟩
    intro x hx
    exact ⟨foldl_min_le ss s x hx, foldl_max_le ss s x hx⟩

theorem lifeOfSteps_eq_none_iff (steps : List Nat) :
    lifeOfSteps steps = none ↔ steps = [] := by
  cases steps <;> simp [lifeOfSteps]

/-! ### Key uniqueness of the lifetime table -/

theorem keysOf_recordUse (m : LifeMap) (i : Nat) (v : String) :
    keysOf (recordUse m i v) =
      if v ∈ keysOf m then keysOf m else keysOf m ++ [v] := by
  induction m with
  | nil => simp [recordUse, keysOf]
  | cons p rest ih =>
    obtain ⟨w, fl⟩ := p
    by_cases h : w = v
    · subst h
      simp [recordUse, keysOf]
    · have hvw : ¬ v = w := fun e => h e.symm
      simp only [keysOf] at ih ⊢
      simp only [recordUse, h, if_false, List.map_cons]
      rw [ih]
      by_cases hm : v ∈ List.map Prod.fst rest
      · simp [hm, hvw]
      · simp [hm, hvw]

theorem nodup_keysOf_recordUse (m : LifeMap) (i : Nat) (v : String)
    (h : (keysOf m).Nodup) : (keysOf (recordUse m i v)).Nodup := by
  rw [keysOf_recordUse]
  by_cases hm : v ∈ keysOf m
  · simp [hm, h]
  · simp [hm, List.nodup_append, h]

theorem nodup_keysOf_foldRecord (i : Nat) (vs : List String) :
    ∀ m : LifeMap, (keysOf m).Nodup →
      (keysOf (vs.foldl (fun acc w => recordUse acc i w) m)).Nodup := by
  induction vs with
  | nil => intro m h; exact h
  | cons w ws ih =>
    intro m h
    exact ih (recordUse m i w) (nodup_keysOf_recordUse m i w h)

theorem nodup_keysOf_analyzeAux :
    ∀ (l : List (Nat × Instr)) (m : LifeMap), (keysOf m).Nodup →
      (keysOf (analyzeAux m l)).Nodup := by
  intro l
  induction l with
  | nil => intro m h; exact h
  | cons p rest ih =>
    intro m h
    have hstep : analyzeAux m (p :: rest) = analyzeAux (recordStep m p.1 p.2) rest := by
      simp [analyzeAux]
    rw [hstep]
    exact ih _ (nodup_keysOf_foldRecord p.1 p.2.refs m h)

theorem nodup_keysOf_analyze (instrs : List Instr) :
    (keysOf (AnalyzeVariableLifeTime instrs)).Nodup :=
  nodup_keysOf_analyzeAux instrs.enum [] (by simp [keysOf])

theorem lifeOf_eq_some_of_mem (m : LifeMap) (v : String) (fl : Nat × Nat)
    (h : (keysOf m).Nodup) (hmem : (v, fl) ∈ m) : lifeOf m v = some fl := by
  induction m with
  | nil => simp at hmem
  | cons p rest ih =>
    obtain ⟨w, gl⟩ := p
    simp only [keysOf, List.map_cons, List.nodup_cons] at h
    rcases List.mem_cons.mp hmem with heq | hmem'
    · obtain ⟨h1, h2⟩ := Prod.mk.injEq .. ▸ heq
      subst h1; subst h2
      simp [lifeOf]
    · have hvk : v ∈ keysOf rest := by
        simpa [keysOf] using List.mem_map_of_mem Prod.fst hmem'
      have hw : w ≠ v := by
        intro he
        subst he
        exact h.1 (by simpa [keysOf] using hvk)
      simp only [lifeOf, hw, if_false]
      exact ih h.2 hmem'

theorem mem_of_lifeOf_eq_some (m : LifeMap) (v : String) (fl : Nat × Nat)
    (h : lifeOf m v = some fl) : (v, fl) ∈ m := by
  induction m with
  | nil => simp [lifeOf] at h
  | cons p rest ih =>
    obtain ⟨w, gl⟩ := p
    by_cases hw : w = v
    · subst hw
      simp only [lifeOf, if_true] at h
      simp [Option.some.injEq] at h
      subst h
      exact List.mem_cons_self _ _
    · simp only [lifeOf, hw, if_false] at h
      exact List.mem_cons_of_mem _ (ih h)

/-! ### Membership in the allocate-before and release-after maps -/

theorem mem_step2malloc_iff (instrs : List Instr) (i : Nat) (v : String) :
    v ∈ step2malloc instrs i ↔
      ∃ l, lifeOf (AnalyzeVariableLifeTime instrs) v = some (i, l) := by
  unfold step2malloc
  rw [List.mem_filterMap]
  constructor
  · rintro ⟨p, hp, hf⟩
    obtain ⟨w, fl⟩ := p
    by_cases h1 : fl.1 = i
    · simp only [h1, if_true, Option.some.injEq] at hf
      subst hf
      refine ⟨fl.2, ?_⟩
      have := lifeOf_eq_some_of_mem _ _ _ (nodup_keysOf_analyze instrs) hp
      rwa [show (i, fl.2) = fl by rw [← h1]]
    · simp [h1] at hf
  · rintro ⟨l, hl⟩
    exact ⟨(v, (i, l)), mem_of_lifeOf_eq_some _ _ _ hl, by simp⟩

theorem mem_step2free_iff (fetch : List String) (instrs : List Instr) (i : Nat)
    (v : String) :
    v ∈ step2free fetch instrs i ↔
      (∃ f, lifeOf (AnalyzeVariableLifeTime instrs) v = some (f, i)) ∧ v ∉ fetch := by
  unfold step2free
  rw [List.mem_filterMap]
  constructor
  · rintro ⟨p, hp, hf⟩
    obtain ⟨w, fl⟩ := p
    by_cases h1 : fl.2 = i ∧ w ∉ fetch
    · have hwv : w = v := by simpa [h1.1, h1.2] using hf
      subst hwv
      refine ⟨⟨fl.1, ?_⟩, h1.2⟩
      have := lifeOf_eq_some_of_mem _ _ _ (nodup_keysOf_analyze instrs) hp
      rwa [show (fl.1, i) = fl by rw [← h1.1]]
    · simp [h1] at hf
  · rintro ⟨⟨f, hl⟩, hv⟩
    exact ⟨(v, (f, i)), mem_of_lifeOf_eq_some _ _ _ hl, by simp [hv]⟩

/-! ### Enumeration helpers -/

theorem mem_enumFrom_fst_lower {α : Type _} :
    ∀ (l : List α) (n : Nat) (p : Nat × α), p ∈ List.enumFrom n l → n ≤ p.1 := by
  intro l
  induction l with
  | nil => intro n p hp; simp at hp
  | cons a tl ih =>
    intro n p hp
    rcases List.mem_cons.mp (by simpa [List.enumFrom_cons] using hp) with heq | hmem
    · subst heq; simp
    · exact le_trans (Nat.le_succ n) (ih (n + 1) p hmem)

theorem mem_enumFrom_snd {α : Type _} :
    ∀ (l : List α) (n : Nat) (p : Nat × α), p ∈ List.enumFrom n l → p.2 ∈ l := by
  intro l
  induction l with
  | nil => intro n p hp; simp at hp
  | cons a tl ih =>
    intro n p hp
    rcases List.mem_cons.mp (by simpa [List.enumFrom_cons] using hp) with heq | hmem
    · subst heq; simp
    · exact List.mem_cons_of_mem _ (ih (n + 1) p hmem)

theorem exists_enumFrom_of_mem {α : Type _} :
    ∀ (l : List α) (n : Nat) (x : α), x ∈ l → ∃ i, (i, x) ∈ List.enumFrom n l := by
  intro l
  induction l with
  | nil => intro n x hx; simp at hx
  | cons a tl ih =>
    intro n x hx
    rcases List.mem_cons.mp hx with heq | hmem
    · subst heq
      exact ⟨n, by simp [List.enumFrom_cons]⟩
    · obtain ⟨i, hi⟩ := ih (n + 1) x hmem
      exact ⟨i, by simp [List.enumFrom_cons, hi]⟩

theorem enumFrom_drop {α : Type _} :
    ∀ (l : List α) (n k : Nat),
      (List.enumFrom n l).drop k = List.enumFrom (n + k) (l.drop k) := by
  intro l
  induction l with
  | nil => intro n k; simp
  | cons a as ih =>
    intro n k
    cases k with
    | zero => simp
    | succ k =>
      simpa [List.enumFrom_cons, Nat.add_assoc, Nat.add_comm 1 k] using ih (n + 1) k

theorem mem_take_enumFrom_fst {α : Type _} :
    ∀ (l : List α) (n k : Nat) (p : Nat × α),
      p ∈ (List.enumFrom n l).take k → p.1 < n + k := by
  intro l
  induction l with
  | nil => intro n k p hp; simp at hp
  | cons a tl ih =>
    intro n k p hp
    cases k with
    | zero => simp at hp
    | succ k =>
      rcases List.mem_cons.mp (by simpa [List.enumFrom_cons] using hp) with heq | hmem
      · subst heq; omega
      · have := ih (n + 1) k p hmem
        omega

theorem mem_drop_enumFrom_fst {α : Type _} (l : List α) (n k : Nat) (p : Nat × α)
    (hp : p ∈ (List.enumFrom n l).drop k) : n + k ≤ p.1 := by
  rw [enumFrom_drop] at hp
  exact mem_enumFrom_fst_lower _ _ _ hp

theorem mem_stepsOf_of_mem (l : List (Nat × Instr)) (v : String) (p : Nat × Instr)
    (hp : p ∈ l) (hv : v ∈ p.2.refs) : p.1 ∈ stepsOf l v := by
  unfold stepsOf
  exact List.mem_map_of_mem Prod.fst (List.mem_filter.mpr ⟨hp, by simpa using hv⟩)

theorem referenced_iff_refSteps_ne_nil (instrs : List Instr) (v : String) :
    v ∈ referencedVars instrs ↔ refSteps instrs v ≠ [] := by
  constructor
  · intro h
    obtain ⟨ins, hins, hv⟩ := List.mem_flatMap.mp h
    obtain ⟨i, hi⟩ := exists_enumFrom_of_mem instrs 0 ins hins
    have : i ∈ refSteps instrs v := mem_stepsOf_of_mem instrs.enum v (i, ins) hi hv
    intro he
    rw [he] at this
    simp at this
  · intro h
    unfold refSteps stepsOf at h
    rcases hne : (instrs.enum.filter (fun p => decide (v ∈ p.2.refs))) with _ | ⟨p, rest⟩
    · rw [hne] at h; simp at h
    · have hp : p ∈ instrs.enum.filter (fun p => decide (v ∈ p.2.refs)) := by
        rw [hne]; exact List.mem_cons_self _ _
      have := List.mem_filter.mp hp
      refine List.mem_flatMap.mpr ⟨p.2, mem_enumFrom_snd instrs 0 p ?_, by simpa using this.2⟩
      simpa [List.enum] using this.1

theorem mem_enumFrom_fst_upper {α : Type _} :
    ∀ (l : List α) (n : Nat) (p : Nat × α), p ∈ List.enumFrom n l → p.1 < n + l.length := by
  intro l
  induction l with
  | nil => intro n p hp; simp at hp
  | cons a tl ih =>
    intro n p hp
    rcases List.mem_cons.mp (by simpa [List.enumFrom_cons] using hp) with heq | hmem
    · subst heq; simp
    · have := ih (n + 1) p hmem
      simp only [List.length_cons]
      omega

theorem mem_refSteps_lt_length (instrs : List Instr) (v : String) (x : Nat)
    (hx : x ∈ refSteps instrs v) : x < instrs.length := by
  unfold refSteps stepsOf at hx
  obtain ⟨p, hp, he⟩ := List.mem_map.mp hx
  have hpe : p ∈ List.enumFrom 0 instrs := by
    simpa [List.enum] using (List.mem_filter.mp hp).1
  have := mem_enumFrom_fst_upper instrs 0 p hpe
  omega

/-! ### Splicing of buffer handlers -/

theorem filter_isCompute_map_alloc (vs : List String) :
    (vs.map Instr.alloc).filter Instr.isCompute = [] := by
  induction vs with
  | nil => simp
  | cons w ws ih => simp [List.filter_cons, Instr.isCompute, ih]

theorem filter_isCompute_map_free (vs : List String) :
    (vs.map Instr.free).filter Instr.isCompute = [] := by
  induction vs with
  | nil => simp
  | cons w ws ih => simp [List.filter_cons, Instr.isCompute, ih]

theorem filter_isCompute_handlerChunk (fetch : List String) (instrs : List Instr)
    (p : Nat × Instr) (h : p.2.isCompute = true) :
    (handlerChunk fetch instrs p).filter Instr.isCompute = [p.2] := by
  unfold handlerChunk
  rw [List.filter_append, filter_isCompute_map_alloc, List.filter_cons]
  simp [h, filter_isCompute_map_free]

theorem filter_isCompute_flatMap (fetch : List String) (instrs : List Instr) :
    ∀ l : List (Nat × Instr), (∀ p ∈ l, p.2.isCompute = true) →
      (l.flatMap (handlerChunk fetch instrs)).filter Instr.isCompute = l.map Prod.snd := by
  intro l
  induction l with
  | nil => intro h; simp
  | cons p rest ih =>
    intro h
    rw [List.flatMap_cons, List.filter_append,
        filter_isCompute_handlerChunk fetch instrs p (h p (List.mem_cons_self _ _)),
        ih (fun q hq => h q (List.mem_cons_of_mem _ hq))]
    simp

/-- Claim C1: removing all synthetic allocate/release instructions from the
output of the Buffer Handler Inserter yields exactly the original
instruction sequence, in the original order; no compute instruction is
relocated, duplicated, or dropped. -/
theorem C1_insert_strips_to_original (fetch : List String) (instrs : List Instr)
    (h : ∀ i ∈ instrs, i.isCompute = true) :
    (InsertBufferHandlers fetch instrs).filter Instr.isCompute = instrs := by
  unfold InsertBufferHandlers
  rw [filter_isCompute_flatMap fetch instrs instrs.enum
      (fun p hp => h p.2 (mem_enumFrom_snd instrs 0 p (by simpa [List.enum] using hp)))]
  exact List.enum_map_snd instrs

/-- Witness for C1 at a concrete instruction sequence. -/
theorem C1_insert_strips_to_original_witness :
    (∀ i ∈ exampleInstrs, i.isCompute = true) ∧
    (InsertBufferHandlers ["a"] exampleInstrs).filter Instr.isCompute = exampleInstrs :=
  ⟨by decide, C1_insert_strips_to_original ["a"] exampleInstrs (by decide)⟩

/-- Counterexample to claim C2 as stated: a variable referenced at a single
step does NOT appear in that step's release-after map entry when it belongs
to the fetch set — the analyzer excludes fetch variables from the release
map, so the claim's unqualified "appears in both map entries" is false. -/
theorem C2_single_step_counterexample :
    refSteps [Instr.compute "k" [] ["v"]] "v" = [0] ∧
    "v" ∈ step2malloc [Instr.compute "k" [] ["v"]] 0 ∧
    "v" ∉ step2free ["v"] [Instr.compute "k" [] ["v"]] 0 := by
  decide

/-- Claim C2 (amended): for every instruction sequence indexed 0..N-1 and
every variable referenced in it, the Lifetime Analyzer records the
variable's first-use step as the minimum index at which it is referenced
and its last-use step as the maximum such index; a variable referenced at a
single step that is not in the fetch set appears in both the
allocate-before and release-after map entries of that same step (a
fetch-set variable appears only in the allocate-before entry). -/
theorem C2_lifetime_first_last (instrs : List Instr) (fetch : List String)
    (v : String) (h : v ∈ referencedVars instrs) :
    ∃ f l, lifeOf (AnalyzeVariableLifeTime instrs) v = some (f, l) ∧
      f ∈ refSteps instrs v ∧ l ∈ refSteps instrs v ∧
      (∀ x ∈ refSteps instrs v, f ≤ x ∧ x ≤ l) ∧
      (f = l → v ∉ fetch → v ∈ step2malloc instrs f ∧ v ∈ step2free fetch instrs f) := by
  have hne := (referenced_iff_refSteps_ne_nil instrs v).mp h
  have hana := lifeOf_analyze instrs v
  rcases hfl : lifeOfSteps (refSteps instrs v) with _ | ⟨f, l⟩
  · exact absurd ((lifeOfSteps_eq_none_iff _).mp hfl) hne
  · obtain ⟨hf, hl, hb⟩ := lifeOfSteps_some _ _ _ hfl
    refine ⟨f, l, hana.trans hfl, hf, hl, hb, ?_⟩
    intro hfeq hnf
    have h2 : lifeOf (AnalyzeVariableLifeTime instrs) v = some (f, f) := by
      rw [hana.trans hfl, hfeq]
    exact ⟨(mem_step2malloc_iff instrs f v).mpr ⟨f, h2⟩,
           (mem_step2free_iff fetch instrs f v).mpr ⟨⟨f, h2⟩, hnf⟩⟩

/-- Witness for the amended C2 on the spec's worked example: "a" referenced
at steps 2, 5, 5, 9. -/
theorem C2_lifetime_first_last_witness :
    "a" ∈ referencedVars exampleInstrs ∧
    ∃ f l, lifeOf (AnalyzeVariableLifeTime exampleInstrs) "a" = some (f, l) ∧
      f ∈ refSteps exampleInstrs "a" ∧ l ∈ refSteps exampleInstrs "a" ∧
      (∀ x ∈ refSteps exampleInstrs "a", f ≤ x ∧ x ≤ l) ∧
      (f = l → "a" ∉ ["t1"] →
        "a" ∈ step2malloc exampleInstrs f ∧ "a" ∈ step2free ["t1"] exampleInstrs f) :=
  ⟨by decide, C2_lifetime_first_last exampleInstrs ["t1"] "a" (by decide)⟩

/-- Claim C3: a variable of the fetch set is never erased by
RemoveInvalidVariables (even with reference count zero), never appears in
any step's release-after map entry, and no release instruction is ever
emitted for it by the Buffer Handler Inserter. -/
theorem C3_fetch_never_released (fetch : List String) (instrs : List Instr)
    (scope : List String) (v : String) (hv : v ∈ fetch)
    (hcomp : ∀ i ∈ instrs, i.isCompute = true) :
    (v ∈ scope → v ∈ RemoveInvalidVariables fetch instrs scope) ∧
    (∀ i, v ∉ step2free fetch instrs i) ∧
    Instr.free v ∉ InsertBufferHandlers fetch instrs := by
  have hnofree : ∀ i, v ∉ step2free fetch instrs i := by
    intro i hmem
    exact ((mem_step2free_iff fetch instrs i v).mp hmem).2 hv
  refine ⟨?_, hnofree, ?_⟩
  · intro hs
    unfold RemoveInvalidVariables
    exact List.mem_filter.mpr ⟨hs, by simp [hv]⟩
  · intro hmem
    obtain ⟨p, hp, hx⟩ := List.mem_flatMap.mp hmem
    unfold handlerChunk at hx
    rcases List.mem_append.mp hx with hx | hx
    · obtain ⟨w, _, he⟩ := List.mem_map.mp hx
      exact Instr.noConfusion he
    · rcases List.mem_cons.mp hx with hx | hx
      · have hpc := hcomp p.2 (mem_enumFrom_snd instrs 0 p (by simpa [List.enum] using hp))
        rw [← hx] at hpc
        simp [Instr.isCompute] at hpc
      · obtain ⟨w, hw, he⟩ := List.mem_map.mp hx
        have hwv : w = v := by
          have := congrArg (fun i => match i with | Instr.free x => x | _ => "") he
          simpa using this
        subst hwv
        exact hnofree p.1 hw

/-- Witness for C3: "t1" is in the fetch set, unreferenced by any
instruction (reference count zero), yet survives cleanup and gets no
release entry and no release instruction. -/
theorem C3_fetch_never_released_witness :
    ("t1" ∈ ["t1"] ∧ (∀ i ∈ exampleInstrs, i.isCompute = true)) ∧
    (("t1" ∈ ["x", "t1"] → "t1" ∈ RemoveInvalidVariables ["t1"] exampleInstrs ["x", "t1"]) ∧
     (∀ i, "t1" ∉ step2free ["t1"] exampleInstrs i) ∧
     Instr.free "t1" ∉ InsertBufferHandlers ["t1"] exampleInstrs) :=
  ⟨⟨by decide, by decide⟩,
   C3_fetch_never_released ["t1"] exampleInstrs ["x", "t1"] "t1" (by decide) (by decide)⟩

theorem drop_enum_cons {α : Type _} (l : List α) (k : Nat) (hk : k < l.length) :
    ∃ c, l.enum.drop k = (k, c) :: l.enum.drop (k + 1) := by
  refine ⟨l.get ⟨k, hk⟩, ?_⟩
  have h1 : l.enum = List.enumFrom 0 l := rfl
  rw [h1, enumFrom_drop, enumFrom_drop, List.drop_eq_getElem_cons hk,
      List.enumFrom_cons]
  simp

theorem mem_handlerChunk_cases (fetch : List String) (instrs : List Instr)
    (p : Nat × Instr) (x : Instr) (hx : x ∈ handlerChunk fetch instrs p) :
    (∃ w ∈ step2malloc instrs p.1, x = Instr.alloc w) ∨ x = p.2 ∨
    (∃ w ∈ step2free fetch instrs p.1, x = Instr.free w) := by
  unfold handlerChunk at hx
  rcases List.mem_append.mp hx with h | h
  · obtain ⟨w, hw, he⟩ := List.mem_map.mp h
    exact Or.inl ⟨w, hw, he.symm⟩
  · rcases List.mem_cons.mp h with h | h
    · exact Or.inr (Or.inl h)
    · obtain ⟨w, hw, he⟩ := List.mem_map.mp h
      exact Or.inr (Or.inr ⟨w, hw, he.symm⟩)

theorem not_ref_chunk_lt (fetch : List String) (instrs : List Instr) (v : String)
    (f : Nat) (hmin : ∀ x ∈ refSteps instrs v, f ≤ x)
    (p : Nat × Instr) (hp : p ∈ instrs.enum) (hlt : p.1 < f) :
    ∀ x ∈ handlerChunk fetch instrs p, v ∉ x.refs := by
  intro x hx
  rcases mem_handlerChunk_cases fetch instrs p x hx with ⟨w, _, rfl⟩ | rfl | ⟨w, _, rfl⟩
  · simp [Instr.refs]
  · intro hvr
    have hstep := mem_stepsOf_of_mem instrs.enum v p hp hvr
    have := hmin p.1 hstep
    omega
  · simp [Instr.refs]

theorem not_ref_chunk_gt (fetch : List String) (instrs : List Instr) (v : String)
    (lst : Nat) (hmax : ∀ x ∈ refSteps instrs v, x ≤ lst)
    (p : Nat × Instr) (hp : p ∈ instrs.enum) (hgt : lst < p.1) :
    ∀ x ∈ handlerChunk fetch instrs p, v ∉ x.refs := by
  intro x hx
  rcases mem_handlerChunk_cases fetch instrs p x hx with ⟨w, _, rfl⟩ | rfl | ⟨w, _, rfl⟩
  · simp [Instr.refs]
  · intro hvr
    have hstep := mem_stepsOf_of_mem instrs.enum v p hp hvr
    have := hmax p.1 hstep
    omega
  · simp [Instr.refs]

theorem not_ref_map_alloc (v : String) (vs : List String) (x : Instr)
    (hx : x ∈ vs.map Instr.alloc) : v ∉ x.refs := by
  obtain ⟨w, _, he⟩ := List.mem_map.mp hx
  subst he
  simp [Instr.refs]

theorem not_ref_map_free (v : String) (vs : List String) (x : Instr)
    (hx : x ∈ vs.map Instr.free) : v ∉ x.refs := by
  obtain ⟨w, _, he⟩ := List.mem_map.mp hx
  subst he
  simp [Instr.refs]

theorem mem_take_enum_fst (instrs : List Instr) (k : Nat) (p : Nat × Instr)
    (hp : p ∈ instrs.enum.take k) : p.1 < k := by
  have h1 : instrs.enum = List.enumFrom 0 instrs := rfl
  rw [h1] at hp
  have := mem_take_enumFrom_fst instrs 0 k p hp
  omega

theorem mem_drop_enum_fst (instrs : List Instr) (k : Nat) (p : Nat × Instr)
    (hp : p ∈ instrs.enum.drop k) : k ≤ p.1 := by
  have h1 : instrs.enum = List.enumFrom 0 instrs := rfl
  rw [h1] at hp
  have := mem_drop_enumFrom_fst instrs 0 k p hp
  omega

/-- Claim C4: in the output of buffer-handler insertion, for every variable
that gets allocate/release directives (it is referenced and not fetched),
the allocate instruction appears at or before the first instruction
referencing the variable, the release instruction at or after the last one,
and the release never precedes the allocate: the output splits as
`l1 ++ alloc v :: l2 ++ free v :: l3` where nothing in `l1` or `l3`
references `v`. -/
theorem C4_handler_placement (fetch : List String) (instrs : List Instr) (v : String)
    (hv : v ∈ referencedVars instrs) (hnf : v ∉ fetch) :
    ∃ l1 l2 l3,
      InsertBufferHandlers fetch instrs =
        l1 ++ Instr.alloc v :: (l2 ++ Instr.free v :: l3) ∧
      (∀ x ∈ l1, v ∉ x.refs) ∧ (∀ x ∈ l3, v ∉ x.refs) := by
  have hne := (referenced_iff_refSteps_ne_nil instrs v).mp hv
  have hana := lifeOf_analyze instrs v
  rcases hfl : lifeOfSteps (refSteps instrs v) with _ | ⟨f, lst⟩
  · exact absurd ((lifeOfSteps_eq_none_iff _).mp hfl) hne
  obtain ⟨hfmem, hlmem, hb⟩ := lifeOfSteps_some _ _ _ hfl
  have hsome := hana.trans hfl
  have hmalloc : v ∈ step2malloc instrs f :=
    (mem_step2malloc_iff instrs f v).mpr ⟨lst, hsome⟩
  have hfree : v ∈ step2free fetch instrs lst :=
    (mem_step2free_iff fetch instrs lst v).mpr ⟨⟨f, hsome⟩, hnf⟩
  have hflen : f < instrs.length := mem_refSteps_lt_length instrs v f hfmem
  have hllen : lst < instrs.length := mem_refSteps_lt_length instrs v lst hlmem
  have hmin : ∀ x ∈ refSteps instrs v, f ≤ x := fun x hx => (hb x hx).1
  have hmax : ∀ x ∈ refSteps instrs v, x ≤ lst := fun x hx => (hb x hx).2
  have hfle : f ≤ lst := (hb lst hlmem).1
  obtain ⟨s1, s2, hs⟩ := List.append_of_mem hmalloc
  obtain ⟨c0, hdropf⟩ := drop_enum_cons instrs f hflen
  have hout : InsertBufferHandlers fetch instrs =
      (instrs.enum.take f).flatMap (handlerChunk fetch instrs) ++
        (handlerChunk fetch instrs (f, c0) ++
          (instrs.enum.drop (f + 1)).flatMap (handlerChunk fetch instrs)) := by
    unfold InsertBufferHandlers
    conv_lhs => rw [← List.take_append_drop f instrs.enum]
    rw [List.flatMap_append, hdropf, List.flatMap_cons]
  have hL1 : ∀ x ∈ (instrs.enum.take f).flatMap (handlerChunk fetch instrs) ++
      List.map Instr.alloc s1, v ∉ x.refs := by
    intro x hx
    rcases List.mem_append.mp hx with hx | hx
    · obtain ⟨p, hp, hxp⟩ := List.mem_flatMap.mp hx
      exact not_ref_chunk_lt fetch instrs v f hmin p (List.mem_of_mem_take hp)
        (mem_take_enum_fst instrs f p hp) x hxp
    · exact not_ref_map_alloc v s1 x hx
  rcases Nat.lt_or_ge f lst with hltc | hgec
  · -- first use strictly before last use
    obtain ⟨t1, t2, ht⟩ := List.append_of_mem hfree
    obtain ⟨c1, hdropl⟩ := drop_enum_cons instrs lst hllen
    have harith : (f + 1) + (lst - (f + 1)) = lst := by omega
    have hd2 : (instrs.enum.drop (f + 1)).drop (lst - (f + 1)) =
        instrs.enum.drop lst := by
      rw [List.drop_drop, harith]
    have hdsplit : instrs.enum.drop (f + 1) =
        (instrs.enum.drop (f + 1)).take (lst - (f + 1)) ++
          ((lst, c1) :: instrs.enum.drop (lst + 1)) := by
      conv_lhs =>
        rw [← List.take_append_drop (lst - (f + 1)) (instrs.enum.drop (f + 1))]
      rw [hd2, hdropl]
    refine ⟨(instrs.enum.take f).flatMap (handlerChunk fetch instrs) ++
        List.map Instr.alloc s1,
      List.map Instr.alloc s2 ++ c0 :: List.map Instr.free (step2free fetch instrs f) ++
        ((instrs.enum.drop (f + 1)).take (lst - (f + 1))).flatMap
          (handlerChunk fetch instrs) ++
        List.map Instr.alloc (step2malloc instrs lst) ++ c1 :: List.map Instr.free t1,
      List.map Instr.free t2 ++
        (instrs.enum.drop (lst + 1)).flatMap (handlerChunk fetch instrs),
      ?_, hL1, ?_⟩
    · rw [hout]
      conv_lhs => rw [hdsplit]
      rw [List.flatMap_append, List.flatMap_cons]
      simp only [handlerChunk, hs, ht, List.map_append, List.map_cons,
        List.append_assoc, List.cons_append]
    · intro x hx
      rcases List.mem_append.mp hx with hx | hx
      · exact not_ref_map_free v t2 x hx
      · obtain ⟨p, hp, hxp⟩ := List.mem_flatMap.mp hx
        exact not_ref_chunk_gt fetch instrs v lst hmax p (List.mem_of_mem_drop hp)
          (by have := mem_drop_enum_fst instrs (lst + 1) p hp; omega) x hxp
  · -- single step: first use equals last use
    have heq : f = lst := le_antisymm hfle hgec
    subst heq
    obtain ⟨t1, t2, ht⟩ := List.append_of_mem hfree
    refine ⟨(instrs.enum.take f).flatMap (handlerChunk fetch instrs) ++
        List.map Instr.alloc s1,
      List.map Instr.alloc s2 ++ c0 :: List.map Instr.free t1,
      List.map Instr.free t2 ++
        (instrs.enum.drop (f + 1)).flatMap (handlerChunk fetch instrs),
      ?_, hL1, ?_⟩
    · rw [hout]
      simp only [handlerChunk, hs, ht, List.map_append, List.map_cons,
        List.append_assoc, List.cons_append]
    · intro x hx
      rcases List.mem_append.mp hx with hx | hx
      · exact not_ref_map_free v t2 x hx
      · obtain ⟨p, hp, hxp⟩ := List.mem_flatMap.mp hx
        exact not_ref_chunk_gt fetch instrs v f hmax p (List.mem_of_mem_drop hp)
          (by have := mem_drop_enum_fst instrs (f + 1) p hp; omega) x hxp

/-- Witness for C4: variable "a" (referenced at steps 2, 5, 5, 9, not in
the fetch set) gets a well-placed allocate/release pair. -/
theorem C4_handler_placement_witness :
    ("a" ∈ referencedVars exampleInstrs ∧ "a" ∉ ["t1"]) ∧
    (∃ l1 l2 l3,
      InsertBufferHandlers ["t1"] exampleInstrs =
        l1 ++ Instr.alloc "a" :: (l2 ++ Instr.free "a" :: l3) ∧
      (∀ x ∈ l1, "a" ∉ x.refs) ∧ (∀ x ∈ l3, "a" ∉ x.refs)) :=
  ⟨⟨by decide, by decide⟩,
   C4_handler_placement ["t1"] exampleInstrs "a" (by decide) (by decide)⟩

/-! ### The Lowering stage and the Build orchestrator -/

theorem lowerGroups_ok (lower : Group → List LoweredFunc) :
    ∀ (gs : List Group) (r : List (List LoweredFunc)),
      lowerGroups lower gs = .ok r → r = gs.map lower := by
  intro gs
  induction gs with
  | nil =>
    intro r h
    simp only [lowerGroups] at h
    obtain rfl := Except.ok.inj h
    simp
  | cons g rest ih =>
    intro r h
    unfold lowerGroups at h
    by_cases hg : lower g = []
    · simp [hg] at h
    · simp only [hg, if_false] at h
      rcases hrec : lowerGroups lower rest with e | rr
      · rw [hrec] at h
        exact absurd h (by simp)
      · rw [hrec] at h
        obtain rfl := Except.ok.inj h
        rw [List.map_cons, ← ih rr hrec]

theorem lowerGroups_err (lower : Group → List LoweredFunc) :
    ∀ gs : List Group, (∃ g ∈ gs, lower g = []) →
      lowerGroups lower gs = .error CompileError.LoweringFailure := by
  intro gs
  induction gs with
  | nil =>
    rintro ⟨g, hg, _⟩
    simp at hg
  | cons g rest ih =>
    rintro ⟨g0, hg0, hl0⟩
    unfold lowerGroups
    by_cases hg : lower g = []
    · simp [hg]
    · have hrest : ∃ g1 ∈ rest, lower g1 = [] := by
        rcases List.mem_cons.mp hg0 with rfl | hmem
        · exact absurd hl0 hg
        · exact ⟨g0, hmem, hl0⟩
      simp [hg, ih hrest]

/-- Claim C5: with no precomputed function lists, Lowering produces exactly
one function-list entry per group, in group order, each non-empty; a group
yielding an empty list is a Lowering failure aborting the compile call. -/
theorem C5_lowering_one_entry_per_group (b : ExternalBackend)
    (ctx : CompilationContext) (hpre : ctx.lowered_funcs = []) :
    (∀ r, Lowering b ctx = .ok r →
        r = ctx.groups.map b.lowerGroup ∧ r.length = ctx.groups.length ∧
        ∀ fs ∈ r, fs ≠ []) ∧
    ((∃ g ∈ ctx.groups, b.lowerGroup g = []) →
      Lowering b ctx = .error CompileError.LoweringFailure ∧
      ∀ res, Build b ctx ≠ .ok res) := by
  constructor
  · intro r h
    unfold Lowering at h
    rw [if_pos hpre] at h
    have hmap := lowerGroups_ok b.lowerGroup ctx.groups r h
    refine ⟨hmap, by simp [hmap], ?_⟩
    intro fs hfs hemp
    obtain ⟨g, hg, he⟩ := List.mem_map.mp (hmap ▸ hfs)
    have : lowerGroups b.lowerGroup ctx.groups = .error CompileError.LoweringFailure :=
      lowerGroups_err b.lowerGroup ctx.groups ⟨g, hg, by rw [he, hemp]⟩
    rw [this] at h
    exact absurd h (by simp)
  · intro hex
    have herr : Lowering b ctx = .error CompileError.LoweringFailure := by
      unfold Lowering
      rw [if_pos hpre]
      exact lowerGroups_err b.lowerGroup ctx.groups hex
    refine ⟨herr, ?_⟩
    intro res hres
    unfold Build at hres
    rw [herr] at hres
    exact absurd hres (by simp)

/-- Witness for C5 on the concrete request (both conjuncts expose
hypotheses; the error half is exercised with a backend whose strategy
yields no function). -/
theorem C5_lowering_one_entry_per_group_witness :
    exampleCtx.lowered_funcs = [] ∧
    (exampleCtx.groups.map exampleBackend.lowerGroup =
        exampleCtx.groups.map exampleBackend.lowerGroup ∧
      (exampleCtx.groups.map exampleBackend.lowerGroup).length =
        exampleCtx.groups.length ∧
      ∀ fs ∈ exampleCtx.groups.map exampleBackend.lowerGroup, fs ≠ []) :=
  ⟨rfl,
   (C5_lowering_one_entry_per_group exampleBackend exampleCtx rfl).1
     (exampleCtx.groups.map exampleBackend.lowerGroup) rfl⟩

theorem codegenAll_congr (b b' : ExternalBackend) (h : b.codegen = b'.codegen) :
    ∀ fs, codegenAll b fs = codegenAll b' fs := by
  intro fs
  induction fs with
  | nil => simp [codegenAll]
  | cons f rest ih => simp only [codegenAll, h, ih]

theorem jitAll_congr (b b' : ExternalBackend) (h : b.jit = b'.jit) :
    ∀ ss, jitAll b ss = jitAll b' ss := by
  intro ss
  induction ss with
  | nil => simp [jitAll]
  | cons s rest ih => simp only [jitAll, h, ih]

theorem Build_congr (b b' : ExternalBackend) (ctx : CompilationContext)
    (hlow : Lowering b ctx = Lowering b' ctx)
    (hcg : b.codegen = b'.codegen) (hdev : b.devcodegen = b'.devcodegen)
    (hjit : b.jit = b'.jit) : Build b ctx = Build b' ctx := by
  unfold Build
  rw [← hlow]
  cases hL : Lowering b ctx with
  | error e => rfl
  | ok funcs =>
    dsimp only
    rw [codegenAll_congr b b' hcg funcs]
    cases hC : codegenAll b' funcs with
    | error e => rfl
    | ok sources =>
      dsimp only
      rw [jitAll_congr b b' hjit sources]
      cases hJ : jitAll b' sources with
      | error e => rfl
      | ok kernels =>
        dsimp only
        rw [hdev]

/-- Claim C6: a pre-supplied (non-empty) list of low-level function lists
whose length differs from the group count fails the call with
RequestShapeError; when the lengths match, the lists are used verbatim and
the lowering stage that would compute them is skipped (the result does not
depend on the operator-strategy interface). -/
theorem C6_precomputed_funcs (b b' : ExternalBackend) (ctx : CompilationContext)
    (hpre : ctx.lowered_funcs ≠ []) :
    (ctx.lowered_funcs.length ≠ ctx.groups.length →
      Lowering b ctx = .error CompileError.RequestShapeError ∧
      ∀ res, Build b ctx ≠ .ok res) ∧
    (ctx.lowered_funcs.length = ctx.groups.length →
      Lowering b ctx = .ok ctx.lowered_funcs ∧
      (b.codegen = b'.codegen → b.devcodegen = b'.devcodegen → b.jit = b'.jit →
        Build b ctx = Build b' ctx)) := by
  constructor
  · intro hlen
    have herr : Lowering b ctx = .error CompileError.RequestShapeError := by
      unfold Lowering
      rw [if_neg hpre, if_neg hlen]
    refine ⟨herr, ?_⟩
    intro res hres
    unfold Build at hres
    rw [herr] at hres
    exact absurd hres (by simp)
  · intro hlen
    have hok : ∀ bb : ExternalBackend, Lowering bb ctx = .ok ctx.lowered_funcs := by
      intro bb
      unfold Lowering
      rw [if_neg hpre, if_pos hlen]
    refine ⟨hok b, ?_⟩
    intro hcg hdev hjit
    exact Build_congr b b' ctx (by rw [hok b, hok b']) hcg hdev hjit

/-- Witness for C6: a request with two groups but one precomputed list
fails with RequestShapeError; with two lists the Build skips lowering. -/
theorem C6_precomputed_funcs_witness :
    ({ exampleCtx with lowered_funcs := [[⟨"pre"⟩]] } :
        CompilationContext).lowered_funcs ≠ [] ∧
    (Lowering exampleBackend { exampleCtx with lowered_funcs := [[⟨"pre"⟩]] } =
        .error CompileError.RequestShapeError ∧
      ∀ res, Build exampleBackend { exampleCtx with lowered_funcs := [[⟨"pre"⟩]] } ≠
        .ok res) :=
  ⟨by decide,
   (C6_precomputed_funcs exampleBackend exampleBackend
      { exampleCtx with lowered_funcs := [[⟨"pre"⟩]] } (by decide)).1 (by decide)⟩

/-- Claim C7: Build is deterministic — on structurally-equal requests (and
the same external backend) it yields identical generated source text per
group and identical instruction variable bindings. -/
theorem C7_build_deterministic (b : ExternalBackend) (ctx1 ctx2 : CompilationContext)
    (heq : ctx1 = ctx2) (r1 r2 : CompilationResult)
    (h1 : Build b ctx1 = .ok r1) (h2 : Build b ctx2 = .ok r2) :
    r1.source_codes = r2.source_codes ∧ r1.program = r2.program ∧ r1 = r2 := by
  subst heq
  rw [h1] at h2
  obtain rfl := Except.ok.inj h2
  exact ⟨rfl, rfl, rfl⟩

/-- Witness for C7: the concrete request builds successfully and two runs
agree. -/
theorem C7_build_deterministic_witness :
    exampleResult.source_codes = exampleResult.source_codes ∧
    exampleResult.program = exampleResult.program ∧
    exampleResult = exampleResult :=
  C7_build_deterministic exampleBackend exampleCtx exampleCtx rfl
    exampleResult exampleResult rfl rfl

theorem codegenAll_length (b : ExternalBackend) :
    ∀ (fs : List (List LoweredFunc)) (ss : List String),
      codegenAll b fs = .ok ss → ss.length = fs.length := by
  intro fs
  induction fs with
  | nil =>
    intro ss h
    simp only [codegenAll] at h
    obtain rfl := Except.ok.inj h
    rfl
  | cons f rest ih =>
    intro ss h
    unfold codegenAll at h
    cases hc : b.codegen f with
    | error e => rw [hc] at h; exact absurd h (by simp)
    | ok s =>
      rw [hc] at h
      cases hr : codegenAll b rest with
      | error e => rw [hr] at h; exact absurd h (by simp)
      | ok ss0 =>
        rw [hr] at h
        obtain rfl := Except.ok.inj h
        simp [ih ss0 hr]

theorem jitAll_length (b : ExternalBackend) :
    ∀ (ss ks : List String), jitAll b ss = .ok ks → ks.length = ss.length := by
  intro ss
  induction ss with
  | nil =>
    intro ks h
    simp only [jitAll] at h
    obtain rfl := Except.ok.inj h
    rfl
  | cons s rest ih =>
    intro ks h
    unfold jitAll at h
    cases hc : b.jit s with
    | error e => rw [hc] at h; exact absurd h (by simp)
    | ok k =>
      rw [hc] at h
      cases hr : jitAll b rest with
      | error e => rw [hr] at h; exact absurd h (by simp)
      | ok ks0 =>
        rw [hr] at h
        obtain rfl := Except.ok.inj h
        simp [ih ks0 hr]

theorem Lowering_ok_length (b : ExternalBackend) (ctx : CompilationContext)
    (funcs : List (List LoweredFunc)) (h : Lowering b ctx = .ok funcs) :
    funcs.length = ctx.groups.length := by
  unfold Lowering at h
  by_cases hpre : ctx.lowered_funcs = []
  · rw [if_pos hpre] at h
    rw [lowerGroups_ok b.lowerGroup ctx.groups funcs h]
    simp
  · rw [if_neg hpre] at h
    by_cases hlen : ctx.lowered_funcs.length = ctx.groups.length
    · rw [if_pos hlen] at h
      obtain rfl := Except.ok.inj h
      exact hlen
    · rw [if_neg hlen] at h
      exact absurd h (by simp)

theorem BuildInstruction_length (ctx : CompilationContext) (kernels : List String)
    (h : kernels.length = ctx.groups.length) :
    (BuildInstruction ctx kernels).length = ctx.groups.length := by
  unfold BuildInstruction
  rw [List.length_map, List.length_zip, h]
  omega

/-- Claim C8: with `with_buffer_handle_instruction_inserted = false`, the
built Program has exactly one instruction per compilation group and no
synthetic allocate/release instruction is present. -/
theorem C8_instruction_count_no_insertion (b : ExternalBackend)
    (ctx : CompilationContext)
    (hflag : ctx.with_buffer_handle_instruction_inserted = false)
    (res : CompilationResult) (h : Build b ctx = .ok res) :
    res.program.length = ctx.groups.length ∧
    ∀ i ∈ res.program, i.isCompute = true := by
  unfold Build at h
  cases hL : Lowering b ctx with
  | error e => rw [hL] at h; exact absurd h (by simp)
  | ok funcs =>
    rw [hL] at h
    dsimp only at h
    cases hC : codegenAll b funcs with
    | error e => rw [hC] at h; exact absurd h (by simp)
    | ok sources =>
      rw [hC] at h
      dsimp only at h
      cases hJ : jitAll b sources with
      | error e => rw [hJ] at h; exact absurd h (by simp)
      | ok kernels =>
        rw [hJ] at h
        simp only [hflag, Bool.false_eq_true, if_false, Except.ok.injEq] at h
        subst h
        constructor
        · exact BuildInstruction_length ctx kernels (by
            rw [jitAll_length b sources kernels hJ,
                codegenAll_length b funcs sources hC,
                Lowering_ok_length b ctx funcs hL])
        · intro i hi
          obtain ⟨p, hp, he⟩ := List.mem_map.mp hi
          rw [← he]
          rfl

/-- Witness for C8 on the concrete two-group request: the Program holds
exactly two instructions, both kernel invocations. -/
theorem C8_instruction_count_no_insertion_witness :
    (exampleCtx.with_buffer_handle_instruction_inserted = false ∧
      Build exampleBackend exampleCtx = .ok exampleResult) ∧
    (exampleResult.program.length = exampleCtx.groups.length ∧
      ∀ i ∈ exampleResult.program, i.isCompute = true) :=
  ⟨⟨rfl, rfl⟩,
   C8_instruction_count_no_insertion exampleBackend exampleCtx rfl exampleResult rfl⟩

/-- Claim C9: `FuseMode` returns the constant tag "InputFuse" for every
object of every class derived from `InputFusePass`; the method is final,
so it does not depend on the subclass's virtual members. -/
theorem C9_input_fuse_mode (p : InputFusePass) : p.FuseMode = "InputFuse" :=
  rfl

/-- Claim C10: a default-constructed `CompilationContext` has empty attached
code, instantiate-variables off, buffer-handler insertion off,
unused-variable removal on, and the DEFAULT compile stage. -/
theorem C10_default_context :
    ({} : CompilationContext).attached_code = "" ∧
    ({} : CompilationContext).with_instantiate_variables = false ∧
    ({} : CompilationContext).with_buffer_handle_instruction_inserted = false ∧
    ({} : CompilationContext).remove_unused_variables = true ∧
    ({} : CompilationContext).stage = Stage.DEFAULT :=
  ⟨rfl, rfl, rfl, rfl, rfl⟩

end GraphCompilerModel
